import Mathlib

/-!
Shallow embedding of the s3ql backup service script
(s3ql_backup_service.py) and proofs about the claims of its design
specification.

The script is a single-threaded orchestrator that mounts a remote
filesystem, duplicates the most recent backup, synchronises live data
into the new backup, locks and expires backups, and unmounts, with
signal masks around the fsck, mount and unmount phases.  External
tools are modelled by their exit statuses, which are inputs of the
model (the World structure); the run of the orchestrator is a pure
function from those inputs to a trace of tool invocations and a final
outcome.  Termination signals are modelled synchronously, as the
specification does: a delivery point is a phase of the run, and the
effect of a delivery depends on the signal disposition installed
while that phase executes.
-/

namespace S3qlBackup

/-- External tools invoked by the orchestrator, by exit-status contract. -/
inductive Tool
  | fsckT
  | mountT
  | cpT
  | lockT
  | rsyncT
  | expireT
  deriving DecidableEq, Repr

/-- Observable events of a run: tool invocations, the sleep between
unmount retries, creation and removal of the temporary mount point. -/
inductive Ev
  | callFsck
  | callMount
  | callCp
  | callLockPrior
  | callRsync
  | callLockNew
  | callExpire
  | callUmount (i : Nat)
  | sleepEv
  | mkdtempEv
  | rmdirEv
  deriving DecidableEq, Repr

/-- Final outcome of a run.  toolFailed models an uncaught
CalledProcessError from a must-succeed invocation; attrError models
the exception raised by joining the mount point path with a missing
prior backup name (None); unmountFailed models the IOError raised
after the unmount retry loop; nameError models the unbound loop
variable read after a loop that ran zero times; interrupted models an
uncaught SignalException carrying the signal number. -/
inductive Outcome
  | success
  | toolFailed (t : Tool)
  | attrError
  | unmountFailed
  | nameError
  | interrupted (n : Nat)
  deriving DecidableEq, Repr

/-- Result of a run: the trace of events and the final outcome. -/
structure RunResult where
  trace : List Ev
  outcome : Outcome
  deriving DecidableEq, Repr

/-- Delivery points for a termination signal: one per elementary phase
of the run. -/
inductive Phase
  | fsckP
  | mkdtempP
  | mountP
  | discoverP
  | duplicateP
  | lockPriorP
  | syncP
  | lockNewP
  | expireP
  | unmountP
  | rmdirP
  deriving DecidableEq, Repr

/-- Signal disposition in effect while a phase executes: either the
temporary SIG_IGN of a phase mask, or the bridge handler installed at
program start, which raises a SignalException. -/
inductive Disp
  | ign
  | raiseH
  deriving DecidableEq, Repr

/-- Command line arguments of the script that the model observes. -/
structure Args where
  fsck : Bool
  noInt : Bool
  maxtries : Int
  ssl : Bool

/-- Exit statuses of the external tools and the directory listing of
the mount point: the inputs of one run. -/
structure World where
  fsckStatus : Nat
  mountStatus : Nat
  entries : List String
  cpStatus : Nat
  lockPriorStatus : Nat
  rsyncStatus : Nat
  lockNewStatus : Nat
  expireStatus : Nat
  umountStatus : Nat → Nat

/-- An optional termination signal: the phase during which it is
delivered, and its signal number. -/
abbrev Sig := Option (Phase × Nat)

/-- Character class of the first ten positions of the backup name
pattern: a digit or a dash. -/
def isDigitOrDash (c : Char) : Bool :=
  c.isDigit || c = '-'

/-- Character class of the last eight positions of the backup name
pattern: a digit or a colon. -/
def isDigitOrColon (c : Char) : Bool :=
  c.isDigit || c = ':'

/-- Match exactly n characters of the class p, returning the rest of
the input, the building block of the backup name pattern. -/
def matchReps (p : Char → Bool) : Nat → List Char → Option (List Char)
  | 0, cs => some cs
  | _ + 1, [] => none
  | n + 1, c :: cs => if p c then matchReps p n cs else none

/-- The backup name filter on character lists: ten digit-or-dash
characters, an underscore, eight digit-or-colon characters, anchored
at both ends.  The end anchor of the dialect also matches just before
a single trailing newline, so a matching name followed by one newline
is accepted as well. -/
def isBackupNameL (cs : List Char) : Bool :=
  match matchReps isDigitOrDash 10 cs with
  | none => false
  | some rest =>
    match rest with
    | [] => false
    | c :: rest2 =>
      if c = '_' then
        match matchReps isDigitOrColon 8 rest2 with
        | none => false
        | some tail => (tail == []) || (tail == ['\n'])
      else false

/-- The backup name filter on strings, as applied to each directory
entry of the mount point. -/
def isBackupName (s : String) : Bool :=
  isBackupNameL s.toList

/-- Lexicographic comparison of character lists, the string ordering
the dialect sorts byte strings by. -/
def charListLe : List Char → List Char → Bool
  | [], _ => true
  | _ :: _, [] => false
  | a :: as, b :: bs =>
    if a < b then true
    else if b < a then false
    else charListLe as bs

/-- Lexicographic string comparison used by the sort of the discovery
phase. -/
def strLe (a b : String) : Bool :=
  charListLe a.toList b.toList

/-- Discovery of the prior backup: filter the mount point entries
through the name pattern, sort ascending, take the last entry, or
none when no entry matches. -/
def lastBackupOf (entries : List String) : Option String :=
  (List.insertionSort (fun a b => strLe a b = true)
    (entries.filter (fun x => isBackupName x))).getLast?

/-- Value of a decimal digit character. -/
def digitVal (c : Char) : Nat :=
  c.toNat - 48

/-- Decimal value of a nonempty list of digit characters, none
otherwise. -/
def digitsVal (cs : List Char) : Option Nat :=
  match cs with
  | [] => none
  | _ =>
    if cs.all Char.isDigit then
      some (cs.foldl (fun a c => a * 10 + digitVal c) 0)
    else none

/-- Strip whitespace from both ends of a character list, as the int
constructor of the dialect does before parsing. -/
def pyTrim (cs : List Char) : List Char :=
  ((cs.dropWhile Char.isWhitespace).reverse.dropWhile Char.isWhitespace).reverse

/-- Integer parsing as the int constructor of the dialect does it on
the inputs of interest: surrounding whitespace stripped, an optional
sign, then a nonempty run of digits; none models a ValueError. -/
def pyInt (cs : List Char) : Option Int :=
  match pyTrim cs with
  | '-' :: rest => (digitsVal rest).map (fun v => -(v : Int))
  | '+' :: rest => (digitsVal rest).map (fun v => (v : Int))
  | t => (digitsVal t).map (fun v => (v : Int))

/-- Split a character list on commas, the split the parser applies to
its input. -/
def splitOnComma (acc : List Char) : List Char → List (List Char)
  | [] => [acc.reverse]
  | c :: cs =>
    if c = ',' then acc.reverse :: splitOnComma [] cs
    else splitOnComma (c :: acc) cs

/-- Parse every component of the comma-split list, propagating a
parse failure, as the generator inside the parser does. -/
def parseAll : List (List Char) → Option (List Int)
  | [] => some []
  | s :: rest =>
    match pyInt s, parseAll rest with
    | some v, some l => some (v :: l)
    | _, _ => none

/-- The retention cycle parser of the script: split on commas, parse
each component as an integer, deduplicate as a set does, and sort
ascending. -/
def cycle_list_type (val : String) : Option (List Int) :=
  (parseAll (splitOnComma [] val.toList)).map
    (fun l => List.insertionSort (fun a b => a ≤ b) l.dedup)

/-- The unmount retry loop, driven by the sequence of unmount exit
statuses: attempt i yields status i; a busy status (4) is followed by
a one-time-unit sleep and a retry while attempts remain; any other
status ends the loop.  Returns the event trace of the loop and the
status of the last attempt, none when zero attempts were made and the
loop variable was never assigned. -/
def umountLoop (status : Nat → Nat) (i : Nat) : Nat → List Ev × Option Nat
  | 0 => ([], none)
  | fuel + 1 =>
    let r := status i
    if r = 4 then
      let rest := umountLoop status (i + 1) fuel
      (Ev.callUmount i :: Ev.sleepEv :: rest.1, some (rest.2.getD 4))
    else ([Ev.callUmount i], some r)

/-- The unmount phase: run the retry loop for at most maxtries
attempts (none when maxtries is not positive), then inspect the final
status: zero ends the phase cleanly, nonzero raises the unmount
failure, and an unassigned loop variable raises a name error. -/
def umountPhase (status : Nat → Nat) (maxtries : Int) : List Ev × Option Outcome :=
  let l := umountLoop status 0 maxtries.toNat
  (l.1,
    match l.2 with
    | none => some Outcome.nameError
    | some 0 => none
    | some _ => some Outcome.unmountFailed)

/-- Number of unmount attempts the retry loop makes from attempt i
with the given remaining tries: retries continue past a busy status
and stop at the first other status or when tries run out. -/
def attemptsFor (status : Nat → Nat) (i : Nat) : Nat → Nat
  | 0 => 0
  | fuel + 1 => if status i = 4 then attemptsFor status (i + 1) fuel + 1 else 1

/-- Expected event trace of a attempts of the retry loop starting at
attempt i: each attempt event, followed by a sleep exactly when its
status was busy. -/
def loopTrace (status : Nat → Nat) (i : Nat) : Nat → List Ev
  | 0 => []
  | a + 1 =>
    (Ev.callUmount i :: (if status i = 4 then [Ev.sleepEv] else []))
      ++ loopTrace status (i + 1) a

/-- Signal disposition in effect during each phase: the fsck, mount
and unmount phases run under a temporary SIG_IGN mask; every other
phase runs under the bridge handler, unless the whole run is masked
by the no-interruptions flag. -/
def disp (noInt : Bool) (p : Phase) : Disp :=
  if noInt then Disp.ign
  else
    match p with
    | Phase.fsckP => Disp.ign
    | Phase.mountP => Disp.ign
    | Phase.unmountP => Disp.ign
    | _ => Disp.raiseH

/-- Effect of the pending signal at phase p: the signal number when
the signal is delivered at p and the disposition there is the raising
bridge handler, none otherwise (no signal, other phase, or dropped by
a SIG_IGN mask). -/
def interruptAt (noInt : Bool) (sig : Sig) (p : Phase) : Option Nat :=
  match sig with
  | none => none
  | some (q, n) =>
    if q = p then
      if disp noInt p = Disp.raiseH then some n else none
    else none

/-- The part of the run after a successful mount, inside the try
block: discover the prior backup, join its path (which raises when
there is none), duplicate and lock the prior backup when present,
synchronise, lock the new backup, expire.  Returns the events after
the mount call and the pending exception of the body, none on
success. -/
def afterMount (args : Args) (w : World) (sig : Sig) : List Ev × Option Outcome :=
  match interruptAt args.noInt sig Phase.discoverP with
  | some n => ([], some (Outcome.interrupted n))
  | none =>
    match lastBackupOf w.entries with
    | none => ([], some Outcome.attrError)
    | some _ =>
      match interruptAt args.noInt sig Phase.duplicateP with
      | some n => ([], some (Outcome.interrupted n))
      | none =>
        if w.cpStatus ≠ 0 then
          ([Ev.callCp], some (Outcome.toolFailed Tool.cpT))
        else
          match interruptAt args.noInt sig Phase.lockPriorP with
          | some n => ([Ev.callCp], some (Outcome.interrupted n))
          | none =>
            if w.lockPriorStatus ≠ 0 then
              ([Ev.callCp, Ev.callLockPrior], some (Outcome.toolFailed Tool.lockT))
            else
              match interruptAt args.noInt sig Phase.syncP with
              | some n => ([Ev.callCp, Ev.callLockPrior], some (Outcome.interrupted n))
              | none =>
                if w.rsyncStatus ≠ 0 then
                  ([Ev.callCp, Ev.callLockPrior, Ev.callRsync],
                   some (Outcome.toolFailed Tool.rsyncT))
                else
                  match interruptAt args.noInt sig Phase.lockNewP with
                  | some n =>
                    ([Ev.callCp, Ev.callLockPrior, Ev.callRsync],
                     some (Outcome.interrupted n))
                  | none =>
                    if w.lockNewStatus ≠ 0 then
                      ([Ev.callCp, Ev.callLockPrior, Ev.callRsync, Ev.callLockNew],
                       some (Outcome.toolFailed Tool.lockT))
                    else
                      match interruptAt args.noInt sig Phase.expireP with
                      | some n =>
                        ([Ev.callCp, Ev.callLockPrior, Ev.callRsync, Ev.callLockNew],
                         some (Outcome.interrupted n))
                      | none =>
                        if w.expireStatus ≠ 0 then
                          ([Ev.callCp, Ev.callLockPrior, Ev.callRsync, Ev.callLockNew,
                            Ev.callExpire],
                           some (Outcome.toolFailed Tool.expireT))
                        else
                          ([Ev.callCp, Ev.callLockPrior, Ev.callRsync, Ev.callLockNew,
                            Ev.callExpire],
                           none)

/-- The whole run of the orchestrator under the signal bridge of the
entry point: optional masked fsck, temporary mount point, masked
mount recording the mounted flag, the try body, and in its finally
clause the masked unmount retry loop when and only when the mounted
flag was set, then the best-effort removal of the mount point. -/
def do_backup (args : Args) (w : World) (sig : Sig) : RunResult :=
  if args.fsck = true ∧ w.fsckStatus ≠ 0 then
    { trace := [Ev.callFsck], outcome := Outcome.toolFailed Tool.fsckT }
  else
    let tr0 : List Ev := if args.fsck = true then [Ev.callFsck] else []
    match interruptAt args.noInt sig Phase.mkdtempP with
    | some n => { trace := tr0, outcome := Outcome.interrupted n }
    | none =>
      if w.mountStatus ≠ 0 then
        match interruptAt args.noInt sig Phase.rmdirP with
        | some n =>
          { trace := tr0 ++ [Ev.mkdtempEv, Ev.callMount],
            outcome := Outcome.interrupted n }
        | none =>
          { trace := tr0 ++ [Ev.mkdtempEv, Ev.callMount, Ev.rmdirEv],
            outcome := Outcome.toolFailed Tool.mountT }
      else
        let body := afterMount args w sig
        let fin := umountPhase w.umountStatus args.maxtries
        let pend : Option Outcome :=
          match fin.2 with
          | some o => some o
          | none => body.2
        match interruptAt args.noInt sig Phase.rmdirP with
        | some n =>
          { trace := tr0 ++ (Ev.mkdtempEv :: Ev.callMount :: body.1) ++ fin.1,
            outcome := Outcome.interrupted n }
        | none =>
          { trace := tr0 ++ (Ev.mkdtempEv :: Ev.callMount :: body.1) ++ fin.1
              ++ [Ev.rmdirEv],
            outcome :=
              match pend with
              | some o => o
              | none => Outcome.success }

/-- Control reaches phase p in the run without a signal: the
reachability conditions of each delivery point, read off the control
flow of the orchestrator. -/
def reaches (args : Args) (w : World) : Phase → Prop
  | Phase.fsckP => args.fsck = true
  | Phase.mkdtempP => ¬(args.fsck = true ∧ w.fsckStatus ≠ 0)
  | Phase.mountP => ¬(args.fsck = true ∧ w.fsckStatus ≠ 0)
  | Phase.discoverP => ¬(args.fsck = true ∧ w.fsckStatus ≠ 0) ∧ w.mountStatus = 0
  | Phase.duplicateP =>
      ¬(args.fsck = true ∧ w.fsckStatus ≠ 0) ∧ w.mountStatus = 0
        ∧ lastBackupOf w.entries ≠ none
  | Phase.lockPriorP =>
      ¬(args.fsck = true ∧ w.fsckStatus ≠ 0) ∧ w.mountStatus = 0
        ∧ lastBackupOf w.entries ≠ none ∧ w.cpStatus = 0
  | Phase.syncP =>
      ¬(args.fsck = true ∧ w.fsckStatus ≠ 0) ∧ w.mountStatus = 0
        ∧ lastBackupOf w.entries ≠ none ∧ w.cpStatus = 0 ∧ w.lockPriorStatus = 0
  | Phase.lockNewP =>
      ¬(args.fsck = true ∧ w.fsckStatus ≠ 0) ∧ w.mountStatus = 0
        ∧ lastBackupOf w.entries ≠ none ∧ w.cpStatus = 0 ∧ w.lockPriorStatus = 0
        ∧ w.rsyncStatus = 0
  | Phase.expireP =>
      ¬(args.fsck = true ∧ w.fsckStatus ≠ 0) ∧ w.mountStatus = 0
        ∧ lastBackupOf w.entries ≠ none ∧ w.cpStatus = 0 ∧ w.lockPriorStatus = 0
        ∧ w.rsyncStatus = 0 ∧ w.lockNewStatus = 0
  | Phase.unmountP => ¬(args.fsck = true ∧ w.fsckStatus ≠ 0) ∧ w.mountStatus = 0
  | Phase.rmdirP => ¬(args.fsck = true ∧ w.fsckStatus ≠ 0)

/-- One entry of the signal catalog of the runtime: a module level
name and its value when that value is an integer, none for the non
integer values the catalog also holds. -/
abbrev Catalog := List (String × Option Int)

/-- Whether a character list begins with the given pattern. -/
def listBeginsWith : List Char → List Char → Bool
  | _, [] => true
  | [], _ :: _ => false
  | c :: cs, p :: ps => if c = p then listBeginsWith cs ps else false

/-- Whether a string begins with the given pattern, used for the name
filter of the signal catalog. -/
def strBeginsWith (s pat : String) : Bool :=
  listBeginsWith s.toList pat.toList

/-- The enumerated default signal set of the mask constructor: every
integer valued constant of the catalog whose name starts with SIG but
not with SIG underscore, collected into a set. -/
def defaultSignals (catalog : Catalog) : Finset Int :=
  (catalog.filterMap
    (fun e =>
      if strBeginsWith e.1 ("SIG") && !(strBeginsWith e.1 ("SIG_")) then e.2
      else none)).toFinset

/-- Set removal as the dialect does it: removing an absent element is
an error (none); removing a present element yields the set without
it. -/
def pyRemove (s : Finset Int) (x : Int) : Option (Finset Int) :=
  if x ∈ s then some (s.erase x) else none

/-- The collection of signals a mask guards: either a set, or the one
element list a single integer argument is wrapped into. -/
inductive SigColl
  | setC (s : Finset Int)
  | listC (l : List Int)
  deriving DecidableEq

/-- The signals argument of the mask constructor: omitted (None), a
single integer, or a set of integers. -/
inductive SigArg
  | noneA
  | intA (n : Int)
  | setA (s : Finset Int)
  deriving DecidableEq

/-- Truthiness of the signals argument in the dialect: None, the
integer zero and the empty set are falsy; everything else is
truthy. -/
def truthy : SigArg → Bool
  | SigArg.noneA => false
  | SigArg.intA n => !(n == 0)
  | SigArg.setA s => !(s == ∅)

/-- The signal set computation of the mask constructor: a falsy
argument selects the enumerated default set minus the kill and stop
signals (an error when either is absent from the catalog); a truthy
single integer is wrapped into a one element list; a truthy set is
kept as is. -/
def signalMask_init (catalog : Catalog) (sigkill sigstop : Int) (arg : SigArg) :
    Option SigColl :=
  if truthy arg = false then
    match pyRemove (defaultSignals catalog) sigkill with
    | none => none
    | some s1 =>
      match pyRemove s1 sigstop with
      | none => none
      | some s2 => some (SigColl.setC s2)
  else
    match arg with
    | SigArg.intA n => some (SigColl.listC [n])
    | SigArg.setA s => some (SigColl.setC s)
    | SigArg.noneA => none

/-- Installing a handler for one signal in the disposition table:
returns the updated table and the previously installed disposition,
as the signal installation call of the runtime does. -/
def sigInstall {H : Type} (t : Int → H) (s : Int) (h : H) : (Int → H) × H :=
  (fun x => if x = s then h else t x, t s)

/-- Mask entry: install the handler for every signal of the list in
order, recording the previously installed disposition of each signal.
Returns the resulting table and the recording. -/
def mask_enter {H : Type} (t : Int → H) (handler : H) : List Int → (Int → H) × List (Int × H)
  | [] => (t, [])
  | s :: rest =>
    let r := sigInstall t s handler
    let next := mask_enter r.1 handler rest
    (next.1, (s, r.2) :: next.2)

/-- Mask exit: reinstall every recorded disposition. -/
def mask_exit {H : Type} (t : Int → H) : List (Int × H) → Int → H
  | [] => t
  | (s, h) :: rest => mask_exit (fun x => if x = s then h else t x) rest

/-- Exceptions relevant to the removal of the temporary directory. -/
inductive PyError
  | osError
  | ioError
  deriving DecidableEq, Repr

/-- Exit of the temporary directory resource: attempt the removal and
swallow its error.  The except clause of the source names the pair
OSError, IOError, which in the dialect catches only OSError and binds
it to the name IOError, so an IOError from the removal propagates. -/
def tempDir_exit (rmdirResult : Option PyError) : Option PyError :=
  match rmdirResult with
  | none => none
  | some e =>
    match e with
    | PyError.osError => none
    | PyError.ioError => some e

/-- Concrete arguments used to instantiate theorems: fsck on, signal
bridge active, five unmount tries. -/
def argsD : Args :=
  { fsck := true, noInt := false, maxtries := 5, ssl := false }

/-- Concrete world used to instantiate theorems: one prior backup,
every tool succeeding. -/
def worldD : World :=
  { fsckStatus := 0
    mountStatus := 0
    entries := ["2024-01-01_00:00:00"]
    cpStatus := 0
    lockPriorStatus := 0
    rsyncStatus := 0
    lockNewStatus := 0
    expireStatus := 0
    umountStatus := fun _ => 0 }

/-- Concrete world of a first run: no entry of the mount point
matches the backup pattern, every tool succeeds. -/
def worldFirstRun : World :=
  { fsckStatus := 0
    mountStatus := 0
    entries := [".s3ql"]
    cpStatus := 0
    lockPriorStatus := 0
    rsyncStatus := 0
    lockNewStatus := 0
    expireStatus := 0
    umountStatus := fun _ => 0 }

/-- Concrete signal catalog used to instantiate theorems about the
default signal set. -/
def catalogD : Catalog :=
  [(("SIGKILL"), some 9), (("SIGSTOP"), some 19), (("SIGTERM"), some 15),
   (("SIG_IGN"), some 1), (("NSIG"), some 65)]

lemma attemptsFor_pos (status : Nat → Nat) (i fuel : Nat) (h : 1 ≤ fuel) :
    1 ≤ attemptsFor status i fuel := by
  cases fuel with
  | zero => omega
  | succ f =>
    unfold attemptsFor
    split <;> omega

lemma attemptsFor_le (status : Nat → Nat) : ∀ fuel i, attemptsFor status i fuel ≤ fuel := by
  intro fuel
  induction fuel with
  | zero => intro i; simp [attemptsFor]
  | succ f ih =>
    intro i
    unfold attemptsFor
    split
    · have := ih (i + 1)
      omega
    · omega

lemma attemptsFor_busy (status : Nat → Nat) :
    ∀ fuel i j, j + 1 < attemptsFor status i fuel → status (i + j) = 4 := by
  intro fuel
  induction fuel with
  | zero => intro i j h; simp [attemptsFor] at h
  | succ f ih =>
    intro i j h
    unfold attemptsFor at h
    by_cases hb : status i = 4
    · rw [if_pos hb] at h
      cases j with
      | zero => simpa using hb
      | succ j2 =>
        have h2 := ih (i + 1) j2 (by omega)
        rw [show i + (j2 + 1) = i + 1 + j2 by omega]
        exact h2
    · rw [if_neg hb] at h
      omega

lemma attemptsFor_last (status : Nat → Nat) :
    ∀ fuel i, attemptsFor status i fuel < fuel →
      status (i + (attemptsFor status i fuel - 1)) ≠ 4 := by
  intro fuel
  induction fuel with
  | zero => intro i h; simp [attemptsFor] at h
  | succ f ih =>
    intro i h
    unfold attemptsFor at h ⊢
    by_cases hb : status i = 4
    · rw [if_pos hb] at h ⊢
      have hf : 1 ≤ f := by
        by_contra hf0
        have : f = 0 := by omega
        subst this
        simp [attemptsFor] at h
      have hpos := attemptsFor_pos status (i + 1) f hf
      have h2 := ih (i + 1) (by omega)
      rw [show i + (attemptsFor status (i + 1) f + 1 - 1)
            = i + 1 + (attemptsFor status (i + 1) f - 1) by omega]
      exact h2
    · rw [if_neg hb] at h ⊢
      simpa using hb

lemma umountLoop_trace (status : Nat → Nat) :
    ∀ fuel i, (umountLoop status i fuel).1 = loopTrace status i (attemptsFor status i fuel) := by
  intro fuel
  induction fuel with
  | zero => intro i; rfl
  | succ f ih =>
    intro i
    unfold umountLoop attemptsFor
    by_cases hb : status i = 4
    · rw [if_pos hb, if_pos hb]
      simp [loopTrace, hb, ih (i + 1)]
    · rw [if_neg hb, if_neg hb]
      simp [loopTrace, hb, attemptsFor]

lemma umountLoop_rv (status : Nat → Nat) :
    ∀ fuel i, 1 ≤ fuel →
      (umountLoop status i fuel).2 = some (status (i + (attemptsFor status i fuel - 1))) := by
  intro fuel
  induction fuel with
  | zero => intro i h; omega
  | succ f ih =>
    intro i _
    unfold umountLoop attemptsFor
    by_cases hb : status i = 4
    · rw [if_pos hb, if_pos hb]
      by_cases hf : 1 ≤ f
      · have hpos := attemptsFor_pos status (i + 1) f hf
        simp only [ih (i + 1) hf, Option.getD_some]
        rw [show i + (attemptsFor status (i + 1) f + 1 - 1)
              = i + 1 + (attemptsFor status (i + 1) f - 1) by omega]
      · have hf0 : f = 0 := by omega
        subst hf0
        simp [umountLoop, attemptsFor, hb]
    · rw [if_neg hb, if_neg hb]
      simp

lemma umountLoop_events (status : Nat → Nat) :
    ∀ fuel i e, e ∈ (umountLoop status i fuel).1 →
      (∃ j, e = Ev.callUmount j) ∨ e = Ev.sleepEv := by
  intro fuel
  induction fuel with
  | zero => intro i e he; simp [umountLoop] at he
  | succ f ih =>
    intro i e he
    unfold umountLoop at he
    by_cases hb : status i = 4
    · rw [if_pos hb] at he
      simp only [List.mem_cons] at he
      rcases he with rfl | rfl | he
      · exact Or.inl ⟨i, rfl⟩
      · exact Or.inr rfl
      · exact ih (i + 1) e he
    · rw [if_neg hb] at he
      simp only [List.mem_cons, List.not_mem_nil, or_false] at he
      exact Or.inl ⟨i, he⟩

lemma umountLoop_head (status : Nat → Nat) (fuel i : Nat) (h : 1 ≤ fuel) :
    Ev.callUmount i ∈ (umountLoop status i fuel).1 := by
  cases fuel with
  | zero => omega
  | succ f =>
    by_cases hb : status i = 4 <;> simp [umountLoop, hb]

lemma umountPhase_trace (status : Nat → Nat) (maxtries : Int) :
    (umountPhase status maxtries).1 = (umountLoop status 0 maxtries.toNat).1 := rfl

/-- C2: the unmount retry loop makes between 1 and maxtries attempts;
every attempt except the last saw the busy status 4 and was followed
by a one-time-unit sleep and a retry; a loop that stopped before
exhausting maxtries stopped on a non-busy status; the phase raises
the unmount failure exactly when the status of the last attempt is
nonzero.  In particular for statuses busy, busy, 0 with maxtries 5
exactly 3 attempts occur and the phase succeeds, and for five busy
statuses with maxtries 5 exactly 5 attempts occur and the unmount
failure is raised. -/
theorem C2_unmount_retry_loop (status : Nat → Nat) (maxtries : Int) (h : 1 ≤ maxtries) :
    (1 ≤ attemptsFor status 0 maxtries.toNat
      ∧ attemptsFor status 0 maxtries.toNat ≤ maxtries.toNat)
    ∧ (umountPhase status maxtries).1
        = loopTrace status 0 (attemptsFor status 0 maxtries.toNat)
    ∧ (∀ j, j + 1 < attemptsFor status 0 maxtries.toNat → status j = 4)
    ∧ (attemptsFor status 0 maxtries.toNat < maxtries.toNat →
        status (attemptsFor status 0 maxtries.toNat - 1) ≠ 4)
    ∧ (umountPhase status maxtries).2
        = (if status (attemptsFor status 0 maxtries.toNat - 1) = 0 then none
           else some Outcome.unmountFailed)
    ∧ attemptsFor (fun i => if i < 2 then 4 else 0) 0 5 = 3
    ∧ umountPhase (fun i => if i < 2 then 4 else 0) 5
        = ([Ev.callUmount 0, Ev.sleepEv, Ev.callUmount 1, Ev.sleepEv, Ev.callUmount 2],
           none)
    ∧ attemptsFor (fun _ : Nat => 4) 0 5 = 5
    ∧ umountPhase (fun _ => 4) 5
        = ([Ev.callUmount 0, Ev.sleepEv, Ev.callUmount 1, Ev.sleepEv, Ev.callUmount 2,
            Ev.sleepEv, Ev.callUmount 3, Ev.sleepEv, Ev.callUmount 4, Ev.sleepEv],
           some Outcome.unmountFailed) := by
  have htoNat : 1 ≤ maxtries.toNat := by omega
  refine ⟨⟨attemptsFor_pos status 0 maxtries.toNat htoNat, attemptsFor_le status maxtries.toNat 0⟩,
    ?_, ?_, ?_, ?_, by decide, by decide, by decide, by decide⟩
  · rw [umountPhase_trace]
    exact umountLoop_trace status maxtries.toNat 0
  · intro j hj
    simpa using attemptsFor_busy status maxtries.toNat 0 j hj
  · intro hlt
    simpa using attemptsFor_last status maxtries.toNat 0 hlt
  · have hrv := umountLoop_rv status maxtries.toNat 0 htoNat
    simp only [Nat.zero_add] at hrv
    rcases hs : status (attemptsFor status 0 maxtries.toNat - 1) with _ | k
    · rw [hs] at hrv
      simp [umountPhase, hrv]
    · rw [hs] at hrv
      simp [umountPhase, hrv]

/-- C2 witness: the retry loop characterisation applied to the
concrete status sequence busy, busy, 0 with maxtries 5. -/
theorem C2_unmount_retry_loop_witness :
    umountPhase (fun i => if i < 2 then 4 else 0) 5
      = ([Ev.callUmount 0, Ev.sleepEv, Ev.callUmount 1, Ev.sleepEv, Ev.callUmount 2],
         none) :=
  (C2_unmount_retry_loop (fun i => if i < 2 then 4 else 0) 5 (by decide)).2.2.2.2.2.2.1

lemma parseAll_mem {ps : List (List Char)} {l : List Int} (h : parseAll ps = some l) :
    ∀ x : Int, x ∈ l ↔ some x ∈ ps.map pyInt := by
  induction ps generalizing l with
  | nil =>
    simp only [parseAll, Option.some.injEq] at h
    subst h
    simp
  | cons s rest ih =>
    intro x
    rcases hp : pyInt s with _ | v
    · rcases hr : parseAll rest with _ | l2 <;>
        simp only [parseAll, hp, hr] at h <;> cases h
    · rcases hr : parseAll rest with _ | l2
      · simp only [parseAll, hp, hr] at h
        cases h
      · simp only [parseAll, hp, hr] at h
        cases h
        simp [hp, ih hr]

/-- C7: any successfully parsed retention cycle list is strictly
sorted ascending and free of duplicates, and holds exactly the
integers parsed from the comma separated components of the input; in
particular the input 7,1,7,31,1 parses to the list 1, 7, 31. -/
theorem C7_cycle_list_sorted_dedup (val : String) (r : List Int)
    (h : cycle_list_type val = some r) :
    List.Sorted (fun a b : Int => a < b) r
    ∧ r.Nodup
    ∧ (∀ x : Int, x ∈ r ↔ some x ∈ (splitOnComma [] val.toList).map pyInt)
    ∧ cycle_list_type ("7,1,7,31,1") = some [1, 7, 31] := by
  rcases Option.map_eq_some'.mp h with ⟨l, hl, hr⟩
  subst hr
  have hnodup : (List.insertionSort (fun a b : Int => a ≤ b) l.dedup).Nodup :=
    (List.perm_insertionSort (fun a b : Int => a ≤ b) l.dedup).symm.nodup
      (List.nodup_dedup l)
  have hsorted : (List.insertionSort (fun a b : Int => a ≤ b) l.dedup).Sorted
      (fun a b : Int => a ≤ b) :=
    List.sorted_insertionSort (fun a b : Int => a ≤ b) l.dedup
  refine ⟨hsorted.lt_of_le hnodup, hnodup, ?_, by decide⟩
  intro x
  rw [(List.perm_insertionSort (fun a b : Int => a ≤ b) l.dedup).mem_iff,
    List.mem_dedup]
  exact parseAll_mem hl x

/-- C7 witness: the parser characterisation applied to the concrete
input 7,1,7,31,1. -/
theorem C7_cycle_list_sorted_dedup_witness :
    cycle_list_type ("7,1,7,31,1") = some [1, 7, 31] :=
  (C7_cycle_list_sorted_dedup ("7,1,7,31,1") [1, 7, 31] (by decide)).2.2.2

/-- C9: the temporary directory exit swallows an OSError from the
removal (and of course a clean removal), but an IOError from the
removal propagates to the caller, because the except clause of the
dialect catches only the first named class and binds it to the second
name.  This contradicts the claim that every removal error is
swallowed; the removal call of the runtime normally raises OSError,
so the claim describes the evident intent and the except clause is a
slip. -/
theorem C9_tempdir_exit_eval :
    tempDir_exit none = none
    ∧ tempDir_exit (some PyError.osError) = none
    ∧ tempDir_exit (some PyError.ioError) = some PyError.ioError := by
  decide

lemma mask_enter_prev {H : Type} (handler : H) :
    ∀ (sigs : List Int) (t : Int → H), sigs.Nodup →
      (mask_enter t handler sigs).2 = sigs.map (fun s => (s, t s)) := by
  intro sigs
  induction sigs with
  | nil => intro t _; rfl
  | cons s rest ih =>
    intro t hnd
    have hs : s ∉ rest := (List.nodup_cons.mp hnd).1
    have hrest : rest.Nodup := (List.nodup_cons.mp hnd).2
    simp only [mask_enter, sigInstall, List.map_cons]
    rw [ih _ hrest]
    refine congrArg _ ?_
    apply List.map_congr_left
    intro a ha
    have hne : ¬(a = s) := fun has => hs (has ▸ ha)
    simp [hne]

lemma mask_enter_table {H : Type} (handler : H) :
    ∀ (sigs : List Int) (t : Int → H) (x : Int),
      (mask_enter t handler sigs).1 x = if x ∈ sigs then handler else t x := by
  intro sigs
  induction sigs with
  | nil => intro t x; simp [mask_enter]
  | cons s rest ih =>
    intro t x
    simp only [mask_enter, sigInstall]
    rw [ih]
    by_cases hx : x ∈ rest <;> by_cases hxs : x = s <;> simp [hx, hxs]

lemma mask_exit_restore {H : Type} :
    ∀ (sigs : List Int) (t base : Int → H), sigs.Nodup →
      (∀ x, x ∉ sigs → base x = t x) →
      ∀ x, mask_exit base (sigs.map (fun s => (s, t s))) x = t x := by
  intro sigs
  induction sigs with
  | nil =>
    intro t base _ hb x
    simpa [mask_exit] using hb x (by simp)
  | cons s rest ih =>
    intro t base hnd hb x
    simp only [List.map_cons, mask_exit]
    refine ih t _ (List.nodup_cons.mp hnd).2 ?_ x
    intro y hy
    by_cases hys : y = s
    · subst hys
      simp
    · have : y ∉ s :: rest := by simp [hys, hy]
      simpa [hys] using hb y this

lemma mask_round_trip {H : Type} (t : Int → H) (handler : H) (sigs : List Int)
    (hnd : sigs.Nodup) (x : Int) :
    mask_exit (mask_enter t handler sigs).1 (mask_enter t handler sigs).2 x = t x := by
  rw [mask_enter_prev handler sigs t hnd]
  apply mask_exit_restore sigs t _ hnd
  intro y hy
  rw [mask_enter_table]
  simp [hy]

/-- C8: entering a mask over a duplicate-free signal set records for
every signal exactly the disposition installed before entry and
installs the new handler everywhere in the set; exiting restores the
recorded dispositions, so the table after exit equals the table at
entry at every signal; and for a nested inner scope the inner entry
records the outer table, the inner exit restores the outer table, and
the outer exit after the inner round trip restores the original
table (LIFO restoration). -/
theorem C8_signal_mask_round_trip :
    ∀ (H : Type) (t : Int → H) (handler : H) (sigs : List Int), sigs.Nodup →
      ((mask_enter t handler sigs).2 = sigs.map (fun s => (s, t s)))
      ∧ (∀ s, s ∈ sigs → (mask_enter t handler sigs).1 s = handler)
      ∧ (∀ x, mask_exit (mask_enter t handler sigs).1 (mask_enter t handler sigs).2 x = t x)
      ∧ (∀ (h2 : H) (sigs2 : List Int), sigs2.Nodup →
          ((mask_enter (mask_enter t handler sigs).1 h2 sigs2).2
              = sigs2.map (fun s => (s, (mask_enter t handler sigs).1 s)))
          ∧ (∀ x, mask_exit (mask_enter (mask_enter t handler sigs).1 h2 sigs2).1
                (mask_enter (mask_enter t handler sigs).1 h2 sigs2).2 x
              = (mask_enter t handler sigs).1 x)
          ∧ (∀ x, mask_exit
                (mask_exit (mask_enter (mask_enter t handler sigs).1 h2 sigs2).1
                  (mask_enter (mask_enter t handler sigs).1 h2 sigs2).2)
                (mask_enter t handler sigs).2 x = t x)) := by
  intro H t handler sigs hnd
  refine ⟨mask_enter_prev handler sigs t hnd, ?_, mask_round_trip t handler sigs hnd, ?_⟩
  · intro s hs
    rw [mask_enter_table]
    simp [hs]
  · intro h2 sigs2 hnd2
    refine ⟨mask_enter_prev h2 sigs2 _ hnd2,
      mask_round_trip (mask_enter t handler sigs).1 h2 sigs2 hnd2, ?_⟩
    intro x
    rw [mask_enter_prev handler sigs t hnd]
    apply mask_exit_restore sigs t _ hnd
    intro y hy
    rw [mask_round_trip (mask_enter t handler sigs).1 h2 sigs2 hnd2 y]
    rw [mask_enter_table]
    simp [hy]

/-- C8 witness: the round trip applied to a concrete table over the
signals 2 and 3. -/
theorem C8_signal_mask_round_trip_witness :
    mask_exit (mask_enter (fun _ : Int => (0 : Nat)) 1 [2, 3]).1
      (mask_enter (fun _ : Int => (0 : Nat)) 1 [2, 3]).2 2 = 0 :=
  (C8_signal_mask_round_trip Nat (fun _ => 0) 1 [2, 3] (by decide)).2.2.1 2

lemma mem_defaultSignals (catalog : Catalog) (x : Int) :
    x ∈ defaultSignals catalog ↔
      ∃ nm, (nm, some x) ∈ catalog ∧ strBeginsWith nm ("SIG") = true
        ∧ strBeginsWith nm ("SIG_") = false := by
  simp only [defaultSignals, List.mem_toFinset, List.mem_filterMap]
  constructor
  · rintro ⟨⟨nm, v⟩, he, hfe⟩
    by_cases hc : (strBeginsWith nm ("SIG") && !(strBeginsWith nm ("SIG_"))) = true
    · rw [if_pos hc] at hfe
      simp only at hfe
      subst hfe
      simp only [Bool.and_eq_true, Bool.not_eq_true'] at hc
      exact ⟨nm, he, hc.1, hc.2⟩
    · rw [if_neg hc] at hfe
      cases hfe
  · rintro ⟨nm, hmem, h1, h2⟩
    refine ⟨(nm, some x), hmem, ?_⟩
    simp [h1, h2]

/-- C6 amended: with the kill and stop signals present in the
enumerated catalog set, a falsy signals argument (omitted, None, the
empty set, and also the integer zero) selects the enumerated default
set minus the kill and stop signals, which holds exactly the integer
valued SIG named catalog entries not named SIG underscore and
different from kill and stop; a single nonzero integer is normalised
to a one element list, and a nonempty set is kept as given.  The
claim as frozen fails only for the single integer zero, which is
falsy in the dialect and therefore selects the default set instead of
a one element list. -/
theorem C6_default_signal_set (catalog : Catalog) (sigkill sigstop : Int)
    (hk : sigkill ∈ defaultSignals catalog)
    (hs : sigstop ∈ (defaultSignals catalog).erase sigkill) :
    (∀ arg, truthy arg = false →
        signalMask_init catalog sigkill sigstop arg
          = some (SigColl.setC (((defaultSignals catalog).erase sigkill).erase sigstop)))
    ∧ (∀ n : Int, n ≠ 0 →
        signalMask_init catalog sigkill sigstop (SigArg.intA n)
          = some (SigColl.listC [n]))
    ∧ (∀ s : Finset Int, s ≠ ∅ →
        signalMask_init catalog sigkill sigstop (SigArg.setA s)
          = some (SigColl.setC s))
    ∧ (∀ x : Int, x ∈ ((defaultSignals catalog).erase sigkill).erase sigstop
          ↔ (x ∈ defaultSignals catalog ∧ x ≠ sigkill ∧ x ≠ sigstop))
    ∧ signalMask_init catalogD 9 19 SigArg.noneA = some (SigColl.setC {15}) := by
  refine ⟨?_, ?_, ?_, ?_, by rfl⟩
  · intro arg harg
    simp [signalMask_init, harg, pyRemove, hk, hs]
  · intro n hn
    have ht : truthy (SigArg.intA n) = true := by simp [truthy, hn]
    simp [signalMask_init, ht]
  · intro s hsne
    have ht : truthy (SigArg.setA s) = true := by simp [truthy, hsne]
    simp [signalMask_init, ht]
  · intro x
    simp only [Finset.mem_erase]
    tauto

/-- C6 witness: the amended constructor contract applied to the
concrete catalog, for the omitted argument. -/
theorem C6_default_signal_set_witness :
    signalMask_init catalogD 9 19 SigArg.noneA = some (SigColl.setC {15}) :=
  (C6_default_signal_set catalogD 9 19 (by decide) (by decide)).2.2.2.2

/-- C6 counterexample: passing the single integer signal zero, which
the frozen claim says is normalised to a one element collection, in
fact selects the whole default set, because zero is falsy in the
dialect. -/
theorem C6_counterexample_int_zero :
    signalMask_init catalogD 9 19 (SigArg.intA 0) = some (SigColl.setC {15})
    ∧ signalMask_init catalogD 9 19 (SigArg.intA 0) ≠ some (SigColl.listC [0]) := by
  refine ⟨by rfl, by decide⟩

lemma charListLe_refl : ∀ as, charListLe as as = true := by
  intro as
  induction as with
  | nil => rfl
  | cons a as ih => simp [charListLe, lt_irrefl, ih]

lemma charListLe_total : ∀ as bs, charListLe as bs = true ∨ charListLe bs as = true := by
  intro as
  induction as with
  | nil => intro bs; left; rfl
  | cons a as ih =>
    intro bs
    cases bs with
    | nil => right; rfl
    | cons b bs2 =>
      rcases lt_trichotomy a b with h | h | h
      · left; simp [charListLe, h]
      · subst h
        rcases ih bs2 with h2 | h2
        · left; simp [charListLe, lt_irrefl, h2]
        · right; simp [charListLe, lt_irrefl, h2]
      · right; simp [charListLe, h]

lemma charListLe_trans :
    ∀ as bs cs, charListLe as bs = true → charListLe bs cs = true →
      charListLe as cs = true := by
  intro as
  induction as with
  | nil => intro bs cs _ _; rfl
  | cons a as ih =>
    intro bs cs h1 h2
    cases bs with
    | nil => simp [charListLe] at h1
    | cons b bs2 =>
      cases cs with
      | nil => simp [charListLe] at h2
      | cons c cs2 =>
        by_cases hab : a < b
        · by_cases hbc : b < c
          · simp [charListLe, lt_trans hab hbc]
          · by_cases hcb : c < b
            · simp [charListLe, hbc, hcb] at h2
            · have hbc2 : b = c := le_antisymm (not_lt.mp hcb) (not_lt.mp hbc)
              subst hbc2
              simp [charListLe, hab]
        · by_cases hba : b < a
          · simp [charListLe, hab, hba] at h1
          · have hab2 : a = b := le_antisymm (not_lt.mp hba) (not_lt.mp hab)
            subst hab2
            simp only [charListLe, lt_irrefl, if_false, if_neg] at h1
            by_cases hac : a < c
            · simp [charListLe, hac]
            · by_cases hca : c < a
              · simp [charListLe, hac, hca] at h2
              · have hac2 : a = c := le_antisymm (not_lt.mp hca) (not_lt.mp hac)
                subst hac2
                simp only [charListLe, lt_irrefl, if_false, if_neg] at h2 ⊢
                exact ih bs2 cs2 h1 h2

lemma strLe_total : ∀ a b : String, strLe a b = true ∨ strLe b a = true := by
  intro a b
  exact charListLe_total a.toList b.toList

lemma strLe_trans :
    ∀ a b c : String, strLe a b = true → strLe b c = true → strLe a c = true := by
  intro a b c
  exact charListLe_trans a.toList b.toList c.toList

lemma sorted_backups (l : List String) :
    (List.insertionSort (fun a b => strLe a b = true) l).Sorted
      (fun a b => strLe a b = true) := by
  haveI : IsTotal String (fun a b => strLe a b = true) := ⟨strLe_total⟩
  haveI : IsTrans String (fun a b => strLe a b = true) := ⟨strLe_trans⟩
  exact List.sorted_insertionSort (fun a b => strLe a b = true) l

lemma sorted_le_getLast :
    ∀ (l : List String), l.Sorted (fun a b => strLe a b = true) →
      ∀ m, l.getLast? = some m → ∀ x ∈ l, strLe x m = true := by
  intro l
  induction l with
  | nil => intro _ m hm; cases hm
  | cons a t ih =>
    intro hs m hm x hx
    cases t with
    | nil =>
      simp only [List.getLast?_singleton, Option.some.injEq] at hm
      subst hm
      rcases List.mem_singleton.mp hx with rfl
      exact charListLe_refl _
    | cons b t2 =>
      rw [List.getLast?_cons_cons] at hm
      rcases List.mem_cons.mp hx with rfl | hx2
      · exact List.rel_of_sorted_cons hs m (List.mem_of_getLast?_eq_some hm)
      · exact ih hs.of_cons m hm x hx2

lemma lastBackupOf_max (entries : List String) (m : String)
    (hm : lastBackupOf entries = some m) :
    isBackupName m = true ∧ m ∈ entries
      ∧ ∀ x ∈ entries, isBackupName x = true → strLe x m = true := by
  have hmem : m ∈ List.insertionSort (fun a b => strLe a b = true)
      (entries.filter (fun x => isBackupName x)) :=
    List.mem_of_getLast?_eq_some hm
  have hmem2 : m ∈ entries.filter (fun x => isBackupName x) :=
    (List.perm_insertionSort _ _).subset hmem
  have hm1 : isBackupName m = true := (List.mem_filter.mp hmem2).2
  refine ⟨hm1, (List.mem_filter.mp hmem2).1, ?_⟩
  intro x hx hbx
  have hxmem : x ∈ List.insertionSort (fun a b => strLe a b = true)
      (entries.filter (fun y => isBackupName y)) := by
    rw [(List.perm_insertionSort _ _).mem_iff]
    exact List.mem_filter.mpr ⟨hx, hbx⟩
  exact sorted_le_getLast _ (sorted_backups _) m hm x hxmem

lemma lastBackupOf_ne_none (entries : List String) (x : String)
    (hx : x ∈ entries) (hbx : isBackupName x = true) :
    lastBackupOf entries ≠ none := by
  intro hnone
  rw [lastBackupOf, List.getLast?_eq_none_iff] at hnone
  have : x ∈ List.insertionSort (fun a b => strLe a b = true)
      (entries.filter (fun y => isBackupName y)) := by
    rw [(List.perm_insertionSort _ _).mem_iff]
    exact List.mem_filter.mpr ⟨hx, hbx⟩
  rw [hnone] at this
  cases this

lemma matchReps_eq_some (p : Char → Bool) :
    ∀ (n : Nat) (cs rest : List Char),
      matchReps p n cs = some rest ↔
        ∃ pre, cs = pre ++ rest ∧ pre.length = n ∧ pre.all p = true := by
  intro n
  induction n with
  | zero =>
    intro cs rest
    constructor
    · intro h
      cases h
      exact ⟨[], rfl, rfl, rfl⟩
    · rintro ⟨pre, rfl, hl, _⟩
      rw [List.length_eq_zero.mp hl]
      rfl
  | succ m ih =>
    intro cs rest
    cases cs with
    | nil =>
      constructor
      · intro h; cases h
      · rintro ⟨pre, hcs, hl, _⟩
        cases pre with
        | nil => cases hl
        | cons c2 pre2 => cases hcs
    | cons c cs2 =>
      by_cases hc : p c = true
      · constructor
        · intro h
          rw [show matchReps p (m + 1) (c :: cs2) = matchReps p m cs2 by
            simp [matchReps, hc]] at h
          rcases (ih cs2 rest).mp h with ⟨pre2, rfl, hl, ha⟩
          exact ⟨c :: pre2, rfl, by simp [hl], by simp [hc, ha]⟩
        · rintro ⟨pre, hcs, hl, ha⟩
          cases pre with
          | nil => cases hl
          | cons c2 pre2 =>
            injection hcs with hc2 hcs2
            subst hc2
            rw [show matchReps p (m + 1) (c :: cs2) = matchReps p m cs2 by
              simp [matchReps, hc]]
            refine (ih cs2 rest).mpr ⟨pre2, hcs2, ?_, ?_⟩
            · simpa using hl
            · simp only [List.all_cons, Bool.and_eq_true] at ha
              exact ha.2
      · constructor
        · intro h
          rw [show matchReps p (m + 1) (c :: cs2) = none by
            simp [matchReps, hc]] at h
          cases h
        · rintro ⟨pre, hcs, hl, ha⟩
          cases pre with
          | nil => cases hl
          | cons c2 pre2 =>
            injection hcs with hc2 hcs2
            subst hc2
            simp only [List.all_cons, Bool.and_eq_true] at ha
            exact absurd ha.1 hc

lemma isBackupNameL_iff (cs : List Char) :
    isBackupNameL cs = true ↔
      ∃ ds us, cs = ds ++ '_' :: us ∧ ds.length = 10
        ∧ ds.all isDigitOrDash = true
        ∧ ((us.length = 8 ∧ us.all isDigitOrColon = true)
           ∨ (us.length = 9 ∧ us.getLast? = some '\n'
               ∧ us.dropLast.all isDigitOrColon = true)) := by
  constructor
  · intro h
    rcases h10 : matchReps isDigitOrDash 10 cs with _ | rest
    · simp only [isBackupNameL, h10] at h
      cases h
    · rcases (matchReps_eq_some isDigitOrDash 10 cs rest).mp h10 with ⟨ds, rfl, hdl, hda⟩
      cases rest with
      | nil =>
        simp only [isBackupNameL, h10] at h
        cases h
      | cons c rest2 =>
        by_cases hcu : c = '_'
        · subst hcu
          simp only [isBackupNameL, h10] at h
          rcases h8 : matchReps isDigitOrColon 8 rest2 with _ | tail
          · rw [h8] at h; cases h
          · rw [h8] at h
            rcases (matchReps_eq_some isDigitOrColon 8 rest2 tail).mp h8
              with ⟨es, rfl, hel, hea⟩
            have htail : tail = [] ∨ tail = ['\n'] := by
              simpa using h
            rcases htail with rfl | rfl
            · refine ⟨ds, es ++ [], rfl, hdl, hda,
                Or.inl ⟨by simp [hel], by simpa using hea⟩⟩
            · refine ⟨ds, es ++ ['\n'], rfl, hdl, hda, Or.inr ⟨by simp [hel], ?_, ?_⟩⟩
              · exact List.getLast?_concat es
              · rw [List.dropLast_concat]
                exact hea
        · simp only [isBackupNameL, h10, if_neg hcu] at h
          cases h
  · rintro ⟨ds, us, rfl, hdl, hda, hus⟩
    have h10 : matchReps isDigitOrDash 10 (ds ++ '_' :: us) = some ('_' :: us) :=
      (matchReps_eq_some isDigitOrDash 10 _ _).mpr ⟨ds, rfl, hdl, hda⟩
    rcases hus with ⟨hl8, ha8⟩ | ⟨hl9, hlast, hdrop⟩
    · have h8 : matchReps isDigitOrColon 8 us = some [] :=
        (matchReps_eq_some isDigitOrColon 8 us []).mpr ⟨us, by simp, hl8, ha8⟩
      simp [isBackupNameL, h10, h8]
    · have hne : us ≠ [] := by
        intro h0
        rw [h0] at hl9
        cases hl9
      have hg : us.getLast hne = '\n' := by
        have := List.getLast?_eq_getLast us hne
        rw [hlast] at this
        exact (Option.some.injEq _ _).mp this.symm
      have hdecomp : us.dropLast ++ ['\n'] = us := by
        rw [← hg]
        exact List.dropLast_concat_getLast hne
      have h8 : matchReps isDigitOrColon 8 us = some ['\n'] :=
        (matchReps_eq_some isDigitOrColon 8 us ['\n']).mpr
          ⟨us.dropLast, hdecomp.symm, by simp [List.length_dropLast, hl9], hdrop⟩
      simp [isBackupNameL, h10, h8]

/-- C5 counterexample: the frozen claim says the name filter accepts
exactly the strings of ten digit-or-dash characters, one underscore
and eight digit-or-colon characters (so always of length 19), but the
filter also accepts such a string followed by one trailing newline,
of length 20, because the end anchor of the dialect also matches just
before a final newline. -/
theorem C5_counterexample_trailing_newline :
    isBackupName ("2024-01-05_13:22:01\n") = true
    ∧ ("2024-01-05_13:22:01\n").toList.length = 20 := by
  decide

/-- C5 amended: the name filter accepts exactly the strings of ten
digit-or-dash characters, an underscore and eight digit-or-colon
characters, or such a string followed by one trailing newline (the
end anchor quirk); it accepts the sample timestamp name and rejects
the four sample non-names; and discovery selects the lexically
greatest matching entry: any selected entry is a matching member of
the entry list that every matching entry compares at most equal to,
a matching entry forces a selection, and on the sample entry set the
later of the two timestamp names is selected. -/
theorem C5_backup_name_filter :
    (∀ s : String, isBackupName s = true ↔
        ∃ ds us, s.toList = ds ++ '_' :: us ∧ ds.length = 10
          ∧ ds.all isDigitOrDash = true
          ∧ ((us.length = 8 ∧ us.all isDigitOrColon = true)
             ∨ (us.length = 9 ∧ us.getLast? = some '\n'
                 ∧ us.dropLast.all isDigitOrColon = true)))
    ∧ isBackupName ("2024-01-05_13:22:01") = true
    ∧ isBackupName (".cache") = false
    ∧ isBackupName (".s3ql") = false
    ∧ isBackupName ("backup-old") = false
    ∧ isBackupName ("2024-1-5_1:2:3") = false
    ∧ (∀ entries m, lastBackupOf entries = some m →
        isBackupName m = true ∧ m ∈ entries
          ∧ ∀ x ∈ entries, isBackupName x = true → strLe x m = true)
    ∧ (∀ entries x, x ∈ entries → isBackupName x = true → lastBackupOf entries ≠ none)
    ∧ lastBackupOf [".s3ql", "2024-01-01_00:00:00", "2024-01-03_00:00:00", "notes.txt"]
        = some ("2024-01-03_00:00:00") := by
  refine ⟨fun s => isBackupNameL_iff s.toList, by decide, by decide, by decide, by decide,
    by decide, lastBackupOf_max, lastBackupOf_ne_none, by decide⟩

/-- C5 witness: the discovery selection applied to the sample entry
set. -/
theorem C5_backup_name_filter_witness :
    lastBackupOf [".s3ql", "2024-01-01_00:00:00", "2024-01-03_00:00:00", "notes.txt"]
      = some ("2024-01-03_00:00:00") :=
  C5_backup_name_filter.2.2.2.2.2.2.2.2

lemma afterMount_events (args : Args) (w : World) (sig : Sig) :
    ∀ e ∈ (afterMount args w sig).1,
      e = Ev.callCp ∨ e = Ev.callLockPrior ∨ e = Ev.callRsync ∨ e = Ev.callLockNew
        ∨ e = Ev.callExpire := by
  intro e he
  unfold afterMount at he
  repeat' split at he
  all_goals simp_all
  all_goals tauto

lemma afterMount_no_umount (args : Args) (w : World) (sig : Sig) (i : Nat) :
    Ev.callUmount i ∉ (afterMount args w sig).1 := by
  intro hmem
  rcases afterMount_events args w sig _ hmem with h | h | h | h | h <;> cases h

lemma umountPhase_events (status : Nat → Nat) (maxtries : Int) :
    ∀ e ∈ (umountPhase status maxtries).1,
      (∃ j, e = Ev.callUmount j) ∨ e = Ev.sleepEv := by
  intro e he
  rw [umountPhase_trace] at he
  exact umountLoop_events status maxtries.toNat 0 e he

lemma umountPhase_head (status : Nat → Nat) (maxtries : Int) (h : 1 ≤ maxtries) :
    Ev.callUmount 0 ∈ (umountPhase status maxtries).1 := by
  rw [umountPhase_trace]
  exact umountLoop_head status maxtries.toNat 0 (by omega)

lemma umountPhase_out (status : Nat → Nat) (maxtries : Int) (h : 1 ≤ maxtries) :
    (umountPhase status maxtries).2 = none
      ∨ (umountPhase status maxtries).2 = some Outcome.unmountFailed := by
  have hrv := umountLoop_rv status maxtries.toNat 0 (by omega)
  rcases hs : status (0 + (attemptsFor status 0 maxtries.toNat - 1)) with _ | k
  · rw [hs] at hrv
    left
    simp [umountPhase, hrv]
  · rw [hs] at hrv
    right
    simp [umountPhase, hrv]

lemma umountPhase_nonpos (status : Nat → Nat) (maxtries : Int) (h : maxtries ≤ 0) :
    umountPhase status maxtries = ([], some Outcome.nameError) := by
  have h0 : maxtries.toNat = 0 := Int.toNat_of_nonpos h
  simp [umountPhase, h0, umountLoop]

lemma do_backup_mounted (args : Args) (w : World) (sig : Sig)
    (hfs : ¬(args.fsck = true ∧ w.fsckStatus ≠ 0))
    (hmk : interruptAt args.noInt sig Phase.mkdtempP = none)
    (hms : w.mountStatus = 0) :
    do_backup args w sig =
      { trace := (if args.fsck = true then [Ev.callFsck] else [])
          ++ (Ev.mkdtempEv :: Ev.callMount :: (afterMount args w sig).1)
          ++ (umountPhase w.umountStatus args.maxtries).1
          ++ (if interruptAt args.noInt sig Phase.rmdirP = none then [Ev.rmdirEv] else [])
        outcome :=
          match interruptAt args.noInt sig Phase.rmdirP with
          | some n => Outcome.interrupted n
          | none =>
            match (umountPhase w.umountStatus args.maxtries).2 with
            | some o => o
            | none =>
              match (afterMount args w sig).2 with
              | some o => o
              | none => Outcome.success } := by
  cases hrd : interruptAt args.noInt sig Phase.rmdirP with
  | none =>
    simp only [do_backup, hfs, hmk, hms, hrd]
    rcases hfin : (umountPhase w.umountStatus args.maxtries).2 with _ | o <;>
      simp [hfin, hfs, hms]
  | some n => simp [do_backup, hfs, hmk, hms, hrd]

/-- C10: with a non positive maxtries and a successful mount, the
retry loop body runs zero times, no unmount attempt is made, and the
post loop status check reads the never assigned loop variable: the
run ends in the name error, neither in success nor in the unmount
failure, so the unmount contract requires at least one try. -/
theorem C10_maxtries_nonpos_name_error (args : Args) (w : World)
    (hmt : args.maxtries ≤ 0)
    (hfs : ¬(args.fsck = true ∧ w.fsckStatus ≠ 0))
    (hms : w.mountStatus = 0) :
    (do_backup args w none).outcome = Outcome.nameError
    ∧ (∀ i, Ev.callUmount i ∉ (do_backup args w none).trace)
    ∧ (do_backup args w none).outcome ≠ Outcome.success
    ∧ (do_backup args w none).outcome ≠ Outcome.unmountFailed := by
  have hup := umountPhase_nonpos w.umountStatus args.maxtries hmt
  have hrun := do_backup_mounted args w none hfs rfl hms
  rw [hrun]
  refine ⟨by simp [hup, interruptAt], ?_, by simp [hup, interruptAt], by simp [hup, interruptAt]⟩
  intro i hmem
  simp only [hup, interruptAt, List.append_nil, List.mem_append, List.mem_cons] at hmem
  rcases hmem with hmem | hmem
  rcases hmem with hmem | hmem | hmem | hmem
  · by_cases hf : args.fsck = true <;> simp [hf] at hmem
  · cases hmem
  · cases hmem
  · exact afterMount_no_umount args w none i hmem
  · simp at hmem

/-- C10 witness: the name error run at concrete arguments with
maxtries zero. -/
theorem C10_maxtries_nonpos_name_error_witness :
    (do_backup ⟨true, false, 0, false⟩ worldD none).outcome = Outcome.nameError :=
  (C10_maxtries_nonpos_name_error ⟨true, false, 0, false⟩ worldD (by decide) (by decide)
    (by decide)).1

/-- C3: on a first run (no mount point entry matches the backup name
pattern) discovery indeed reports no prior backup and the duplication
and prior lock tools are never invoked, but the run does not proceed
to the synchronisation state: joining the mount point path with the
missing prior backup name raises before the guard on the prior
backup, so the run aborts (the mount is still cleaned up) and the
synchronisation tool is never invoked. -/
theorem C3_first_run_aborts_before_sync :
    lastBackupOf worldFirstRun.entries = none
    ∧ Ev.callCp ∉ (do_backup argsD worldFirstRun none).trace
    ∧ Ev.callLockPrior ∉ (do_backup argsD worldFirstRun none).trace
    ∧ (do_backup argsD worldFirstRun none).trace
        = [Ev.callFsck, Ev.mkdtempEv, Ev.callMount, Ev.callUmount 0, Ev.rmdirEv]
    ∧ (do_backup argsD worldFirstRun none).outcome = Outcome.attrError
    ∧ Ev.callRsync ∉ (do_backup argsD worldFirstRun none).trace := by
  decide

/-- C1: the unmount phase runs exactly when the mount invocation was
made and returned zero, whatever later states did (any failure of
discovery, duplication, locking, synchronisation or expiry included);
and when the mount invocation fails, no unmount attempt is ever made
and only the best effort mount point removal runs after it. -/
theorem C1_unmount_iff_mounted (args : Args) (w : World) (hmt : 1 ≤ args.maxtries) :
    (∀ sig : Sig,
        Ev.callUmount 0 ∈ (do_backup args w sig).trace ↔
          Ev.callMount ∈ (do_backup args w sig).trace ∧ w.mountStatus = 0)
    ∧ (w.mountStatus ≠ 0 → ¬(args.fsck = true ∧ w.fsckStatus ≠ 0) →
        (do_backup args w none).trace
            = (if args.fsck = true then [Ev.callFsck] else [])
              ++ [Ev.mkdtempEv, Ev.callMount, Ev.rmdirEv]
          ∧ (do_backup args w none).outcome = Outcome.toolFailed Tool.mountT
          ∧ ∀ i, Ev.callUmount i ∉ (do_backup args w none).trace) := by
  constructor
  · intro sig
    by_cases hfs : args.fsck = true ∧ w.fsckStatus ≠ 0
    · simp [do_backup, hfs]
    · cases hmk : interruptAt args.noInt sig Phase.mkdtempP with
      | some n =>
        have hrec : do_backup args w sig =
            { trace := if args.fsck = true then [Ev.callFsck] else []
              outcome := Outcome.interrupted n } := by
          simp [do_backup, hfs, hmk]
        rw [hrec]
        by_cases hf : args.fsck = true <;> simp [hf]
      | none =>
        by_cases hms : w.mountStatus = 0
        · have hrun := do_backup_mounted args w sig hfs hmk hms
          rw [hrun]
          have hu := umountPhase_head w.umountStatus args.maxtries hmt
          simp [hu, hms]
        · have hms2 : w.mountStatus ≠ 0 := hms
          cases hrd : interruptAt args.noInt sig Phase.rmdirP with
          | some n =>
            have hrec : do_backup args w sig =
                { trace := (if args.fsck = true then [Ev.callFsck] else [])
                    ++ [Ev.mkdtempEv, Ev.callMount]
                  outcome := Outcome.interrupted n } := by
              simp [do_backup, hfs, hmk, hms2, hrd]
            rw [hrec]
            by_cases hf : args.fsck = true <;> simp [hf, hms]
          | none =>
            have hrec : do_backup args w sig =
                { trace := (if args.fsck = true then [Ev.callFsck] else [])
                    ++ [Ev.mkdtempEv, Ev.callMount, Ev.rmdirEv]
                  outcome := Outcome.toolFailed Tool.mountT } := by
              simp [do_backup, hfs, hmk, hms2, hrd]
            rw [hrec]
            by_cases hf : args.fsck = true <;> simp [hf, hms]
  · intro hms hfs
    have hrec : do_backup args w none =
        { trace := (if args.fsck = true then [Ev.callFsck] else [])
            ++ [Ev.mkdtempEv, Ev.callMount, Ev.rmdirEv]
          outcome := Outcome.toolFailed Tool.mountT } := by
      simp [do_backup, hfs, hms, interruptAt]
    rw [hrec]
    refine ⟨rfl, rfl, ?_⟩
    intro i hmem
    by_cases hf : args.fsck = true <;> simp [hf] at hmem

/-- C1 witness: the unmount iff mounted equivalence at the concrete
world where every tool succeeds. -/
theorem C1_unmount_iff_mounted_witness :
    Ev.callUmount 0 ∈ (do_backup argsD worldD none).trace ↔
      Ev.callMount ∈ (do_backup argsD worldD none).trace ∧ worldD.mountStatus = 0 :=
  (C1_unmount_iff_mounted argsD worldD (by decide)).1 none

lemma interrupted_body_run (args : Args) (w : World) (sig : Sig) (n : Nat)
    (hfs : ¬(args.fsck = true ∧ w.fsckStatus ≠ 0))
    (hmk : interruptAt args.noInt sig Phase.mkdtempP = none)
    (hrd : interruptAt args.noInt sig Phase.rmdirP = none)
    (hms : w.mountStatus = 0)
    (hmt : 1 ≤ args.maxtries)
    (hbody : (afterMount args w sig).2 = some (Outcome.interrupted n)) :
    ((do_backup args w sig).outcome = Outcome.interrupted n
      ∨ (do_backup args w sig).outcome = Outcome.unmountFailed)
    ∧ (do_backup args w sig).outcome ≠ Outcome.success
    ∧ Ev.callUmount 0 ∈ (do_backup args w sig).trace
    ∧ (Ev.callExpire ∉ (afterMount args w sig).1 →
        Ev.callExpire ∉ (do_backup args w sig).trace) := by
  have hrun := do_backup_mounted args w sig hfs hmk hms
  have hout : (do_backup args w sig).outcome = Outcome.interrupted n
      ∨ (do_backup args w sig).outcome = Outcome.unmountFailed := by
    rw [hrun]
    rcases umountPhase_out w.umountStatus args.maxtries hmt with hfin | hfin <;>
      simp [hrd, hfin, hbody]
  have hnsucc : (do_backup args w sig).outcome ≠ Outcome.success := by
    rcases hout with h | h <;> rw [h] <;> simp
  have humem : Ev.callUmount 0 ∈ (do_backup args w sig).trace := by
    rw [hrun]
    simp [umountPhase_head w.umountStatus args.maxtries hmt]
  refine ⟨hout, hnsucc, humem, ?_⟩
  intro hnx hmem
  rw [hrun] at hmem
  simp only [List.mem_append, List.mem_cons, hrd, if_pos] at hmem
  rcases hmem with ((h | h) | h) | h
  · by_cases hf : args.fsck = true <;> simp [hf] at h
  · rcases h with h | h | h
    · cases h
    · cases h
    · exact hnx h
  · rcases umountPhase_events w.umountStatus args.maxtries _ h with ⟨j, hj⟩ | hj <;>
      simp at hj
  · simp at h

lemma interruptAt_self (noInt : Bool) (p : Phase) (n : Nat)
    (hni : noInt = false) (hd : disp false p = Disp.raiseH) :
    interruptAt noInt (some (p, n)) p = some n := by
  subst hni
  simp [interruptAt, hd]

/-- C4: a termination signal delivered during a phase whose mask is
in effect (fsck, mount or unmount, and any phase when the whole run
is masked) has no observable effect at all: the run with the signal
equals the run without it.  A termination signal delivered at a
reachable point outside all phase masks, under the whole run bridge,
raises the Interrupted failure carrying the signal number: the run
never ends in success, it ends in that Interrupted outcome unless the
cleanup unmount itself fails (UnmountFailed), control short circuits
to the cleanup path (the unmount loop still runs whenever the mount
had succeeded), and no later must-succeed state runs (the expiry tool
is never invoked). -/
theorem C4_signal_discipline :
    (∀ (args : Args) (w : World) (p : Phase) (n : Nat),
        disp args.noInt p = Disp.ign →
        do_backup args w (some (p, n)) = do_backup args w none)
    ∧ (∀ (args : Args) (w : World) (p : Phase) (n : Nat),
        args.noInt = false → disp false p = Disp.raiseH → 1 ≤ args.maxtries →
        reaches args w p →
        (do_backup args w (some (p, n))).outcome ≠ Outcome.success
        ∧ ((do_backup args w (some (p, n))).outcome = Outcome.interrupted n
            ∨ (do_backup args w (some (p, n))).outcome = Outcome.unmountFailed)
        ∧ (w.mountStatus = 0 → p ≠ Phase.mkdtempP →
            Ev.callUmount 0 ∈ (do_backup args w (some (p, n))).trace)
        ∧ (p ≠ Phase.rmdirP → Ev.callExpire ∉ (do_backup args w (some (p, n))).trace)) := by
  constructor
  · intro args w p n hd
    have hnone : ∀ q, interruptAt args.noInt (some (p, n)) q = none := by
      intro q
      simp only [interruptAt]
      by_cases hpq : p = q
      · subst hpq
        simp [hd]
      · simp [hpq]
    have hnone2 : ∀ q, interruptAt args.noInt (none : Sig) q = none := fun _ => rfl
    simp only [do_backup, afterMount, hnone, hnone2]
  · intro args w p n hni hd hmt hreach
    cases p with
    | fsckP => simp [disp, hni] at hd
    | mountP => simp [disp, hni] at hd
    | unmountP => simp [disp, hni] at hd
    | mkdtempP =>
      have hint : interruptAt args.noInt (some (Phase.mkdtempP, n)) Phase.mkdtempP
          = some n := interruptAt_self args.noInt Phase.mkdtempP n hni hd
      have hrec : do_backup args w (some (Phase.mkdtempP, n)) =
          { trace := if args.fsck = true then [Ev.callFsck] else []
            outcome := Outcome.interrupted n } := by
        simp only [do_backup, hint]
        rw [if_neg hreach]
      rw [hrec]
      refine ⟨by simp, Or.inl rfl, ?_, ?_⟩
      · intro _ hp
        exact absurd rfl hp
      · intro _
        by_cases hf : args.fsck = true <;> simp [hf]
    | discoverP =>
      obtain ⟨hfs, hms⟩ := hreach
      have hmk : interruptAt args.noInt (some (Phase.discoverP, n)) Phase.mkdtempP
          = none := by simp [interruptAt]
      have hrd : interruptAt args.noInt (some (Phase.discoverP, n)) Phase.rmdirP
          = none := by simp [interruptAt]
      have hbody : afterMount args w (some (Phase.discoverP, n))
          = ([], some (Outcome.interrupted n)) := by
        simp [afterMount, interruptAt, hni, disp]
      have hmain := interrupted_body_run args w _ n hfs hmk hrd hms hmt
        (by rw [hbody])
      refine ⟨hmain.2.1, hmain.1, fun _ _ => hmain.2.2.1, fun _ => hmain.2.2.2 ?_⟩
      rw [hbody]
      simp
    | duplicateP =>
      obtain ⟨hfs, hms, hlb⟩ := hreach
      obtain ⟨b, hb⟩ := Option.ne_none_iff_exists'.mp hlb
      have hmk : interruptAt args.noInt (some (Phase.duplicateP, n)) Phase.mkdtempP
          = none := by simp [interruptAt]
      have hrd : interruptAt args.noInt (some (Phase.duplicateP, n)) Phase.rmdirP
          = none := by simp [interruptAt]
      have hbody : afterMount args w (some (Phase.duplicateP, n))
          = ([], some (Outcome.interrupted n)) := by
        simp [afterMount, interruptAt, hni, disp, hb]
      have hmain := interrupted_body_run args w _ n hfs hmk hrd hms hmt
        (by rw [hbody])
      refine ⟨hmain.2.1, hmain.1, fun _ _ => hmain.2.2.1, fun _ => hmain.2.2.2 ?_⟩
      rw [hbody]
      simp
    | lockPriorP =>
      obtain ⟨hfs, hms, hlb, hcp⟩ := hreach
      obtain ⟨b, hb⟩ := Option.ne_none_iff_exists'.mp hlb
      have hmk : interruptAt args.noInt (some (Phase.lockPriorP, n)) Phase.mkdtempP
          = none := by simp [interruptAt]
      have hrd : interruptAt args.noInt (some (Phase.lockPriorP, n)) Phase.rmdirP
          = none := by simp [interruptAt]
      have hbody : afterMount args w (some (Phase.lockPriorP, n))
          = ([Ev.callCp], some (Outcome.interrupted n)) := by
        simp [afterMount, interruptAt, hni, disp, hb, hcp]
      have hmain := interrupted_body_run args w _ n hfs hmk hrd hms hmt
        (by rw [hbody])
      refine ⟨hmain.2.1, hmain.1, fun _ _ => hmain.2.2.1, fun _ => hmain.2.2.2 ?_⟩
      rw [hbody]
      simp
    | syncP =>
      obtain ⟨hfs, hms, hlb, hcp, hlp⟩ := hreach
      obtain ⟨b, hb⟩ := Option.ne_none_iff_exists'.mp hlb
      have hmk : interruptAt args.noInt (some (Phase.syncP, n)) Phase.mkdtempP
          = none := by simp [interruptAt]
      have hrd : interruptAt args.noInt (some (Phase.syncP, n)) Phase.rmdirP
          = none := by simp [interruptAt]
      have hbody : afterMount args w (some (Phase.syncP, n))
          = ([Ev.callCp, Ev.callLockPrior], some (Outcome.interrupted n)) := by
        simp [afterMount, interruptAt, hni, disp, hb, hcp, hlp]
      have hmain := interrupted_body_run args w _ n hfs hmk hrd hms hmt
        (by rw [hbody])
      refine ⟨hmain.2.1, hmain.1, fun _ _ => hmain.2.2.1, fun _ => hmain.2.2.2 ?_⟩
      rw [hbody]
      simp
    | lockNewP =>
      obtain ⟨hfs, hms, hlb, hcp, hlp, hrs⟩ := hreach
      obtain ⟨b, hb⟩ := Option.ne_none_iff_exists'.mp hlb
      have hmk : interruptAt args.noInt (some (Phase.lockNewP, n)) Phase.mkdtempP
          = none := by simp [interruptAt]
      have hrd : interruptAt args.noInt (some (Phase.lockNewP, n)) Phase.rmdirP
          = none := by simp [interruptAt]
      have hbody : afterMount args w (some (Phase.lockNewP, n))
          = ([Ev.callCp, Ev.callLockPrior, Ev.callRsync],
             some (Outcome.interrupted n)) := by
        simp [afterMount, interruptAt, hni, disp, hb, hcp, hlp, hrs]
      have hmain := interrupted_body_run args w _ n hfs hmk hrd hms hmt
        (by rw [hbody])
      refine ⟨hmain.2.1, hmain.1, fun _ _ => hmain.2.2.1, fun _ => hmain.2.2.2 ?_⟩
      rw [hbody]
      simp
    | expireP =>
      obtain ⟨hfs, hms, hlb, hcp, hlp, hrs, hln⟩ := hreach
      obtain ⟨b, hb⟩ := Option.ne_none_iff_exists'.mp hlb
      have hmk : interruptAt args.noInt (some (Phase.expireP, n)) Phase.mkdtempP
          = none := by simp [interruptAt]
      have hrd : interruptAt args.noInt (some (Phase.expireP, n)) Phase.rmdirP
          = none := by simp [interruptAt]
      have hbody : afterMount args w (some (Phase.expireP, n))
          = ([Ev.callCp, Ev.callLockPrior, Ev.callRsync, Ev.callLockNew],
             some (Outcome.interrupted n)) := by
        simp [afterMount, interruptAt, hni, disp, hb, hcp, hlp, hrs, hln]
      have hmain := interrupted_body_run args w _ n hfs hmk hrd hms hmt
        (by rw [hbody])
      refine ⟨hmain.2.1, hmain.1, fun _ _ => hmain.2.2.1, fun _ => hmain.2.2.2 ?_⟩
      rw [hbody]
      simp
    | rmdirP =>
      have hfs : ¬(args.fsck = true ∧ w.fsckStatus ≠ 0) := hreach
      have hmk : interruptAt args.noInt (some (Phase.rmdirP, n)) Phase.mkdtempP
          = none := by simp [interruptAt]
      have hrd : interruptAt args.noInt (some (Phase.rmdirP, n)) Phase.rmdirP
          = some n := interruptAt_self args.noInt Phase.rmdirP n hni hd
      by_cases hms : w.mountStatus = 0
      · have hrun := do_backup_mounted args w (some (Phase.rmdirP, n)) hfs hmk hms
        refine ⟨?_, ?_, ?_, ?_⟩
        · rw [hrun]
          simp [hrd]
        · rw [hrun]
          simp [hrd]
        · intro _ _
          rw [hrun]
          simp [umountPhase_head w.umountStatus args.maxtries hmt]
        · intro hp
          exact absurd rfl hp
      · have hrec : do_backup args w (some (Phase.rmdirP, n)) =
            { trace := (if args.fsck = true then [Ev.callFsck] else [])
                ++ [Ev.mkdtempEv, Ev.callMount]
              outcome := Outcome.interrupted n } := by
          simp [do_backup, hfs, hmk, hms, hrd]
        rw [hrec]
        refine ⟨by simp, Or.inl rfl, ?_, ?_⟩
        · intro hm _
          exact absurd hm hms
        · intro hp
          exact absurd rfl hp

/-- C4 witness: a signal delivered during the masked mount phase has
no effect on the concrete run, applied from the masked part of the
signal discipline theorem. -/
theorem C4_signal_discipline_witness :
    do_backup argsD worldD (some (Phase.mountP, 15)) = do_backup argsD worldD none :=
  C4_signal_discipline.1 argsD worldD Phase.mountP 15 (by decide)

end S3qlBackup
